import Mathlib

/-!
Verification of the InkSight stroke-processing pipeline, device file
processor and cloud job queue against their natural-language specification.

Modelling conventions, chosen to mirror the Python source:
* `f64` coordinates are modelled as real numbers; `math.hypot`/`math.exp`
  become `Real.sqrt`/`Real.exp`.  Pressure, speed, direction and width are
  Python ints, modelled as `ℤ`; Python true division feeding `int(...)`
  is modelled exactly as the truncated-toward-zero integer quotient
  (`Int.tdiv`, with the algebraic rewriting documented at each use).
* Python `list(points)` copies a list of value-compared dataclasses, which
  is the identity on our value-level lists.
* File mtimes are modelled as `ℚ`; the sidecar marker stores the decimal
  rendering of an mtime, and since `str` is injective on mtimes the marker
  is modelled by the recorded value itself.
-/

namespace InkSight

/-- rmscene `Point`: x/y are f64, the remaining attributes Python ints. -/
structure Point where
  x : ℝ
  y : ℝ
  speed : ℤ
  direction : ℤ
  width : ℤ
  pressure : ℤ

instance : Inhabited Point := ⟨⟨0, 0, 0, 0, 0, 0⟩⟩

/-- `points[i]`, total at the type level; callers only use in-range indices. -/
def ptAt (l : List Point) (i : ℕ) : Point := l.getD i default

/-- `math.hypot dx dy`. -/
noncomputable def hypot (a b : ℝ) : ℝ := Real.sqrt (a * a + b * b)

-- Python `int(x)` truncates toward zero; on an exact quotient of integers
-- with positive divisor that is `Int.tdiv`, which is how the two uses of
-- `int(...)` in `normalize_pressure` are modelled below.

/-- `_gaussian_weights(window_size, sigma)`: normalized Gaussian kernel
weights for offsets `-half .. half` (the loop index `i` is `k - half`). -/
noncomputable def _gaussian_weights (window_size : ℕ) (sigma : ℝ) : List ℝ :=
  let half : ℕ := window_size / 2
  let weights := (List.range (2 * half + 1)).map (fun k =>
    Real.exp (-(((k : ℝ) - (half : ℝ)) * ((k : ℝ) - (half : ℝ))) / (2 * sigma * sigma)))
  weights.map (fun w => w / weights.sum)

/-- `smooth_gaussian(points, window_size, sigma)`. -/
noncomputable def smooth_gaussian (points : List Point) (window_size : ℕ) (sigma : ℝ) :
    List Point :=
  if points.length < 3 then points
  else
    let w1 := min window_size points.length
    let ws := if w1 % 2 = 0 then w1 - 1 else w1
    if ws < 3 then points
    else
      let weights := _gaussian_weights ws sigma
      let half := ws / 2
      (List.range points.length).map (fun i =>
        if i < half ∨ points.length - half ≤ i then ptAt points i
        else
          let sx := ((List.range ws).map
            (fun j => weights.getD j 0 * (ptAt points (i - half + j)).x)).sum
          let sy := ((List.range ws).map
            (fun j => weights.getD j 0 * (ptAt points (i - half + j)).y)).sum
          { ptAt points i with x := sx, y := sy })

/-- `smooth_moving_average(points, window_size)`. -/
noncomputable def smooth_moving_average (points : List Point) (window_size : ℕ) :
    List Point :=
  if points.length < 3 then points
  else
    let w1 := min window_size points.length
    let ws := if w1 % 2 = 0 then w1 - 1 else w1
    if ws < 3 then points
    else
      let half := ws / 2
      (List.range points.length).map (fun i =>
        if i < half ∨ points.length - half ≤ i then ptAt points i
        else
          let sx := ((List.range ws).map
            (fun j => (ptAt points (i - half + j)).x)).sum / (ws : ℝ)
          let sy := ((List.range ws).map
            (fun j => (ptAt points (i - half + j)).y)).sum / (ws : ℝ)
          { ptAt points i with x := sx, y := sy })

/-- `_perpendicular_distance(point, line_start, line_end)`: distance to the
segment, the projection parameter clamped to `[0, 1]`. -/
noncomputable def _perpendicular_distance (point line_start line_end : Point) : ℝ :=
  let dx := line_end.x - line_start.x
  let dy := line_end.y - line_start.y
  let length_sq := dx * dx + dy * dy
  if length_sq = 0 then hypot (point.x - line_start.x) (point.y - line_start.y)
  else
    let t := max 0 (min 1
      (((point.x - line_start.x) * dx + (point.y - line_start.y) * dy) / length_sq))
    hypot (point.x - (line_start.x + t * dx)) (point.y - (line_start.y + t * dy))

/-- Distance of `l[i]` from the segment between `l`'s first and last point:
the quantity the RDP scan loop computes for each interior index. -/
noncomputable def distToEnds (l : List Point) (i : ℕ) : ℝ :=
  _perpendicular_distance (ptAt l i) (ptAt l 0) (ptAt l (l.length - 1))

/-- One step of the `max_dist`/`max_idx` scan loop of `simplify_rdp`:
update on strictly larger distance (so the first index attaining the
maximum is kept). -/
noncomputable def rdpStep (points : List Point) (md : ℝ × ℕ) (k : ℕ) : ℝ × ℕ :=
  if md.1 < distToEnds points (k + 1) then (distToEnds points (k + 1), k + 1) else md

/-- The `max_dist`/`max_idx` scan of `simplify_rdp`: fold `rdpStep` over the
interior indices `1 .. len-2`. -/
noncomputable def rdpScan (points : List Point) : ℝ × ℕ :=
  (List.range (points.length - 2)).foldl (rdpStep points) (0, 0)

/-- `simplify_rdp(points, epsilon)`.  The inner guard on `max_idx` is for
Lean's termination checker only: the scan yields an index in `[1, len-2]`
whenever `max_dist > 0` (lemma `rdpScan_spec`), and splitting requires
`max_dist > epsilon`, so for `epsilon ≥ 0` the guard always holds.  (For
`epsilon < 0` and a scan that never updates, the Python code calls itself
on the full list and does not terminate.) -/
noncomputable def simplify_rdp (points : List Point) (epsilon : ℝ) : List Point :=
  if points.length < 3 then points
  else
    if epsilon < (rdpScan points).1 then
      if h : 1 ≤ (rdpScan points).2 ∧ (rdpScan points).2 ≤ points.length - 2 then
        (simplify_rdp (points.take ((rdpScan points).2 + 1)) epsilon).dropLast ++
          simplify_rdp (points.drop (rdpScan points).2) epsilon
      else [ptAt points 0, ptAt points (points.length - 1)]
    else [ptAt points 0, ptAt points (points.length - 1)]
termination_by points.length
decreasing_by
  · simp only [List.length_take]
    omega
  · simp only [List.length_drop]
    omega

/-- The percentile pressures `(p_lo, p_hi)` picked by `normalize_pressure`:
sort the pressures (Python's stable `sorted`), index by
`lo_idx = max(0, int(n*low_pct/100))` and
`hi_idx = min(n-1, int(n*high_pct/100))`. -/
def pressurePercentiles (points : List Point) (low_pct high_pct : ℤ) : ℤ × ℤ :=
  let pressures := (points.map Point.pressure).insertionSort (· ≤ ·)
  let n : ℤ := pressures.length
  let lo_idx := max 0 ((n * low_pct).tdiv 100)
  let hi_idx := min (n - 1) ((n * high_pct).tdiv 100)
  (pressures.getD lo_idx.toNat 0, pressures.getD hi_idx.toNat 0)

/-- `normalize_pressure(points, target_min, target_max, low_pct, high_pct)`.
Python computes `int(target_min + ((p-p_lo)/(p_hi-p_lo))·(target_max-target_min))`
with true division; over exact arithmetic that value is the single fraction
`(target_min·(p_hi-p_lo) + (p-p_lo)·(target_max-target_min)) / (p_hi-p_lo)`
truncated toward zero, i.e. `Int.tdiv` (the divisor is positive in this
branch). -/
def normalize_pressure (points : List Point) (target_min target_max low_pct high_pct : ℤ) :
    List Point :=
  if points.length < 2 then points
  else
    let pq := pressurePercentiles points low_pct high_pct
    if pq.2 ≤ pq.1 then
      let mid := (target_min + target_max).fdiv 2
      points.map (fun p => { p with pressure := mid })
    else
      points.map (fun p =>
        let new_pressure := (target_min * (pq.2 - pq.1) +
          (p.pressure - pq.1) * (target_max - target_min)).tdiv (pq.2 - pq.1)
        { p with pressure := max 0 (min 255 new_pressure) })

/-- `_stroke_length(points)`: sum of consecutive Euclidean distances. -/
noncomputable def _stroke_length (points : List Point) : ℝ :=
  ((points.zip points.tail).map (fun ab => hypot (ab.2.x - ab.1.x) (ab.2.y - ab.1.y))).sum

/-- `_max_deviation(points)`: max distance of an interior point from the
segment between first and last (`0` below three points; the distances are
nonnegative, so folding `max` from `0` equals Python's `max(...)`). -/
noncomputable def _max_deviation (points : List Point) : ℝ :=
  if points.length < 3 then 0
  else (((points.drop 1).dropLast).map
    (fun p => _perpendicular_distance p (ptAt points 0) (ptAt points (points.length - 1)))).foldl max 0

/-- `straighten_line(points, threshold, min_length, max_points)`: the running
`cumulative` at step `i` equals the length of the prefix `points[:i+1]`. -/
noncomputable def straighten_line (points : List Point) (threshold min_length : ℝ)
    (max_points : ℕ) : List Point :=
  if points.length < 2 ∨ max_points < points.length then points
  else if _stroke_length points < min_length then points
  else if threshold < _max_deviation points then points
  else
    let start := ptAt points 0
    let last := ptAt points (points.length - 1)
    let total_len := _stroke_length points
    if total_len = 0 then points
    else
      start :: (List.range (points.length - 1)).map (fun k =>
        let t := _stroke_length (points.take (k + 2)) / total_len
        { ptAt points (k + 1) with
          x := start.x + t * (last.x - start.x)
          y := start.y + t * (last.y - start.y) })

/-! ### Device configuration (`config.py`) and pipeline composer -/

/-- `SmoothingConfig`. -/
structure SmoothingConfig where
  enabled : Bool
  algorithm : String
  window_size : ℕ
  sigma : ℝ
  rdp_epsilon : ℝ
  min_points : ℕ

/-- `PressureConfig`. -/
structure PressureConfig where
  enabled : Bool
  target_min : ℤ
  target_max : ℤ
  low_percentile : ℤ
  high_percentile : ℤ

/-- `StraighteningConfig`. -/
structure StraighteningConfig where
  enabled : Bool
  straightness_threshold : ℝ
  min_length : ℝ
  max_points : ℕ

/-- `ProcessingConfig` (the fields the processor reads). -/
structure ProcessingConfig where
  skip_tools : List ℤ
  only_tools : List ℤ

/-- `InkSightConfig` (the fields the pipeline and processor read). -/
structure InkSightConfig where
  smoothing : SmoothingConfig
  pressure_normalization : PressureConfig
  line_straightening : StraighteningConfig
  processing : ProcessingConfig

/-- The dataclass defaults of `config.py`; for the stages the spec names,
these are the `medium` preset's values (gaussian σ=1.0, window 5,
straighten τ=15/L_min=50/N_max=30, pressure 10/245/5/95, skip tools 6,8). -/
def defaultConfig : InkSightConfig :=
  { smoothing := ⟨true, "gaussian", 5, 1, 2, 5⟩
    pressure_normalization := ⟨true, 10, 245, 5, 95⟩
    line_straightening := ⟨true, 15, 50, 30⟩
    processing := ⟨[6, 8], []⟩ }

/-- `process_stroke(points, config)`: smoothing (if enabled and the stroke
has at least `min_points` points), then straightening (if enabled), then
pressure normalization (if enabled), each on the previous stage's output. -/
noncomputable def process_stroke (points : List Point) (config : InkSightConfig) :
    List Point :=
  let result := points
  let result :=
    if config.smoothing.enabled ∧ config.smoothing.min_points ≤ result.length then
      if config.smoothing.algorithm = "gaussian" then
        smooth_gaussian result config.smoothing.window_size config.smoothing.sigma
      else if config.smoothing.algorithm = "moving_average" then
        smooth_moving_average result config.smoothing.window_size
      else if config.smoothing.algorithm = "rdp" then
        simplify_rdp result config.smoothing.rdp_epsilon
      else result
    else result
  let result :=
    if config.line_straightening.enabled then
      straighten_line result config.line_straightening.straightness_threshold
        config.line_straightening.min_length config.line_straightening.max_points
    else result
  let result :=
    if config.pressure_normalization.enabled then
      normalize_pressure result config.pressure_normalization.target_min
        config.pressure_normalization.target_max
        config.pressure_normalization.low_percentile
        config.pressure_normalization.high_percentile
    else result
  result

/-! ### Device file processor (`processor.py`)

The filesystem visible to `FileProcessor` is modelled per path: the blocks
`read_blocks` would yield (`none` = read failure), the file's mtime
(`none` = `OSError` from `getmtime`), and the readable content of the
`".inksight"` sidecar (`none` = absent or unreadable, the two being
indistinguishable to `should_process`).  The in-memory
`_processed_mtimes` dict is the `Daemon` state.  Writes into this model
always succeed; `process_file`'s answer on a write failure (it logs and
returns `False` without marking) is outside the model. -/

/-- rmscene `Line`: the payload of a line-item block. -/
structure Line where
  tool : ℤ
  points : List Point

/-- A scene block: the single interpreted variant (`SceneLineItemBlock`,
whose item value may be `None`) and opaque pass-through blocks. -/
inductive Block where
  | lineItem (value : Option Line)
  | other (payload : ℕ)

/-- Filesystem state for one watched tree. -/
structure FS where
  blocks : String → Option (List Block)
  mtime : String → Option ℚ
  marker : String → Option ℚ

/-- The `FileProcessor`'s in-memory state. -/
structure Daemon where
  processed_mtimes : String → Option ℚ

/-- Python `rm_path.endswith(".rm")`, stated on the character list (the
same suffix predicate; `String.endsWith` does not reduce in the kernel). -/
def endsWithRm (p : String) : Bool := ".rm".data.isSuffixOf p.data

/-- `FileProcessor.should_process(rm_path)`: the returned decision and the
updated in-memory state (the marker hit records the mtime in memory). -/
def should_process (fs : FS) (d : Daemon) (rm_path : String) : Bool × Daemon :=
  if ¬ endsWithRm rm_path then (false, d)
  else
    (fs.mtime rm_path).elim (false, d) (fun mtime =>
      if (d.processed_mtimes rm_path).elim false (fun last => decide (mtime ≤ last)) then
        (false, d)
      else
        (fs.marker rm_path).elim (true, d) (fun content =>
          if content = mtime then
            (false, ⟨fun p => if p = rm_path then some mtime else d.processed_mtimes p⟩)
          else (true, d)))

/-- `FileProcessor._should_process_line(line)`. -/
def _should_process_line (config : InkSightConfig) (line : Line) : Bool :=
  if line.tool ∈ config.processing.skip_tools then false
  else if config.processing.only_tools ≠ [] ∧ line.tool ∉ config.processing.only_tools then
    false
  else true

open Classical in
/-- The per-block rewrite step of `process_file`'s loop. -/
noncomputable def processBlock (config : InkSightConfig) (b : Block) : Block :=
  match b with
  | .other payload => .other payload
  | .lineItem none => .lineItem none
  | .lineItem (some line) =>
    if ¬ _should_process_line config line then .lineItem (some line)
    else if line.points.length < 2 then .lineItem (some line)
    else
      let new_points := process_stroke line.points config
      if new_points ≠ line.points then .lineItem (some { line with points := new_points })
      else .lineItem (some line)

/-- `FileProcessor._mark_processed(rm_path, mtime)`: record the mtime in
memory and write it to the sidecar. -/
def _mark_processed (fs : FS) (d : Daemon) (rm_path : String) (mtime : ℚ) : FS × Daemon :=
  (⟨fs.blocks, fs.mtime, fun p => if p = rm_path then some mtime else fs.marker p⟩,
   ⟨fun p => if p = rm_path then some mtime else d.processed_mtimes p⟩)

/-- `FileProcessor._write_safely(rm_path, blocks)` in the always-succeeding
model: the rewritten blocks land at `rm_path` and the rename gives the file
a fresh mtime `new_mtime`. -/
def _write_safely (fs : FS) (rm_path : String) (blocks : List Block) (new_mtime : ℚ) : FS :=
  ⟨fun p => if p = rm_path then some blocks else fs.blocks p,
   fun p => if p = rm_path then some new_mtime else fs.mtime p,
   fs.marker⟩

open Classical in
/-- `FileProcessor.process_file(rm_path)`: `some (changed, fs, daemon)`, or
`none` when the final `os.path.getmtime` raises (the only uncaught
exception in the always-succeeding-write model; a read failure returns
`False` and changes nothing). -/
noncomputable def process_file (config : InkSightConfig) (fs : FS) (d : Daemon)
    (rm_path : String) (new_mtime : ℚ) : Option (Bool × FS × Daemon) :=
  match fs.blocks rm_path with
  | none => some (false, fs, d)
  | some blocks =>
    let blocks2 := blocks.map (processBlock config)
    if blocks2 ≠ blocks then
      let fs1 := _write_safely fs rm_path blocks2 new_mtime
      (fs1.mtime rm_path).elim none (fun mtime =>
        let md := _mark_processed fs1 d rm_path mtime
        some (true, md.1, md.2))
    else
      (fs.mtime rm_path).elim none (fun mtime =>
        let md := _mark_processed fs d rm_path mtime
        some (false, md.1, md.2))

/-! ### Cloud authentication (`cloud/app/auth.py`)

`verify_api_key` sees the `X-API-Key` header as `Option String` (`none` =
header absent); Python's `if not api_key` also treats an empty header as
missing. -/

/-- The outcome of `verify_api_key`: the validated key, or an HTTP 401. -/
inductive AuthResult where
  | ok (key : String)
  | unauthorized (detail : String)
deriving DecidableEq

/-- `verify_api_key(api_key)` against the configured key set. -/
def verify_api_key (valid_keys : List String) (api_key : Option String) : AuthResult :=
  if valid_keys = [] then .ok "dev_mode"
  else if api_key = none ∨ api_key = some "" then
    .unauthorized "Missing API key. Provide X-API-Key header."
  else if (api_key.getD "") ∈ valid_keys then .ok (api_key.getD "")
  else .unauthorized "Invalid API key"

/-- `get_user_id_from_key(api_key)`: the key itself is the user id. -/
def get_user_id_from_key (api_key : String) : String := api_key

/-- The tenant identity a request ends up owning: the user id derived from
the key `verify_api_key` returned, when it accepted. -/
def tenantOf (valid_keys : List String) (api_key : Option String) : Option String :=
  match verify_api_key valid_keys api_key with
  | .ok key => some (get_user_id_from_key key)
  | .unauthorized _ => none

/-! ### Cloud job queue (`cloud/app/services/queue.py`)

`self.jobs` is a dict keyed by `job_id`, iterated in insertion order; it is
modelled as a `List Job` in insertion order, with `update_job` replacing by
id.  `datetime` timestamps are modelled as `ℚ`. -/

/-- `JobStatus`. -/
inductive JobStatus where
  | queued
  | processing
  | completed
  | failed
deriving DecidableEq

/-- `ProcessingStats` (the fields it carries are irrelevant to the queue). -/
structure ProcessingStats where
  strokes_processed : ℕ
  strokes_smoothed : ℕ
  strokes_straightened : ℕ
  strokes_skipped : ℕ
  processing_time_ms : Option ℕ
deriving DecidableEq

/-- `Job`. -/
structure Job where
  job_id : ℕ
  user_id : String
  status : JobStatus
  preset : String
  input_filename : String
  input_path : String
  output_path : Option String
  created_at : ℚ
  started_at : Option ℚ
  completed_at : Option ℚ
  progress : ℤ
  error_message : Option String
  stats : Option ProcessingStats
deriving DecidableEq

/-- What `services/processor.py`'s `process_file` hands back to the worker:
its return sites produce either `COMPLETED` with an output path and stats,
or `FAILED` with an error message. -/
inductive RunResult where
  | completedRun (output_path : String) (stats : ProcessingStats)
  | failedRun (error : String)
deriving DecidableEq

/-- `JobQueue.get_user_jobs(user_id, limit)`: the user's jobs, sorted by
`created_at` descending (Python's stable `sort(..., reverse=True)`),
capped at `limit`. -/
def get_user_jobs (jobs : List Job) (user_id : String) (limit : ℕ) : List Job :=
  ((jobs.filter (fun j => j.user_id = user_id)).insertionSort
    (fun a b => b.created_at ≤ a.created_at)).take limit

/-- `JobQueue.update_job(job)`: replace the record with `job`'s id. -/
def update_job (jobs : List Job) (job : Job) : List Job :=
  jobs.map (fun j => if j.job_id = job.job_id then job else j)

/-- The worker's selection: `queued = [j | status = QUEUED]`, then Python's
`min(queued, key=created_at)`, which keeps the first of equal minima. -/
def selectNext (jobs : List Job) : Option Job :=
  match jobs.filter (fun j => j.status = JobStatus.queued) with
  | [] => none
  | q :: qs => some (qs.foldl (fun best j => if j.created_at < best.created_at then j else best) q)

/-- The `Queued → Processing` transition at the top of `_process_job`. -/
def markProcessing (job : Job) (now : ℚ) : Job :=
  { job with status := .processing, started_at := some now, progress := 10 }

/-- The terminal update at the bottom of `_process_job`. -/
def applyResult (job : Job) (res : RunResult) (now : ℚ) : Job :=
  match res with
  | .completedRun output_path stats =>
    { job with status := .completed, progress := 100, completed_at := some now,
               output_path := some output_path, error_message := none, stats := some stats }
  | .failedRun error =>
    { job with status := .failed, completed_at := some now,
               output_path := none, error_message := some error, stats := none }

/-- `_process_job(job)`: mark processing (status, `started_at = now`,
`progress = 10`), commit, run the processor on the marked job, commit the
terminal result.  Returns the queue state in which the processor ran and
the final queue state. -/
def process_job (jobs : List Job) (job : Job) (run : Job → RunResult) (now now2 : ℚ) :
    List Job × List Job :=
  let j1 := markProcessing job now
  let jobs1 := update_job jobs j1
  let res := run j1
  (jobs1, update_job jobs1 (applyResult j1 res now2))

/-- One iteration of `_process_queue`'s loop: nothing happens without a
queued job; otherwise the oldest queued job is processed. -/
def workerIteration (jobs : List Job) (run : Job → RunResult) (now now2 : ℚ) : List Job :=
  match selectNext jobs with
  | none => jobs
  | some job => (process_job jobs job run now now2).2

/-! ### Spec-side pipeline stages (§4.2), for the composition claim -/

/-- Spec §4.2 step 1: the selected smoothing kernel, applied only when
smoothing is enabled and the stroke has at least `min_points` points. -/
noncomputable def smoothingStage (config : InkSightConfig) (points : List Point) : List Point :=
  if config.smoothing.enabled ∧ config.smoothing.min_points ≤ points.length then
    if config.smoothing.algorithm = "gaussian" then
      smooth_gaussian points config.smoothing.window_size config.smoothing.sigma
    else if config.smoothing.algorithm = "moving_average" then
      smooth_moving_average points config.smoothing.window_size
    else if config.smoothing.algorithm = "rdp" then
      simplify_rdp points config.smoothing.rdp_epsilon
    else points
  else points

/-- Spec §4.2 step 2: straight-line snap, when straightening is enabled. -/
noncomputable def straighteningStage (config : InkSightConfig) (points : List Point) :
    List Point :=
  if config.line_straightening.enabled then
    straighten_line points config.line_straightening.straightness_threshold
      config.line_straightening.min_length config.line_straightening.max_points
  else points

/-- Spec §4.2 step 3: pressure normalization, when enabled. -/
def normalizationStage (config : InkSightConfig) (points : List Point) : List Point :=
  if config.pressure_normalization.enabled then
    normalize_pressure points config.pressure_normalization.target_min
      config.pressure_normalization.target_max
      config.pressure_normalization.low_percentile
      config.pressure_normalization.high_percentile
  else points

/-- C6: for every stroke and every configuration, `process_stroke` is the
fixed-order composition smoothing stage, then straightening stage, then
pressure-normalization stage, each consuming the previous stage's output. -/
theorem process_stroke_is_fixed_composition (points : List Point) (config : InkSightConfig) :
    process_stroke points config =
      normalizationStage config (straighteningStage config (smoothingStage config points)) :=
  rfl

/-- C6 witness: the composition at a concrete stroke and the default config. -/
theorem process_stroke_is_fixed_composition_witness :
    process_stroke [] defaultConfig =
      normalizationStage defaultConfig
        (straighteningStage defaultConfig (smoothingStage defaultConfig [])) :=
  process_stroke_is_fixed_composition [] defaultConfig

/-! ### C8: the non-RDP kernels preserve the number of points -/

/-- C8: Gaussian smoothing, moving-average smoothing, straight-line snap and
pressure normalization all return exactly as many points as they are given,
for every stroke and all parameters. -/
theorem non_rdp_kernels_preserve_length (points : List Point) (w : ℕ) (sigma tau lmin : ℝ)
    (nmax : ℕ) (tmin tmax lo hi : ℤ) :
    (smooth_gaussian points w sigma).length = points.length ∧
    (smooth_moving_average points w).length = points.length ∧
    (straighten_line points tau lmin nmax).length = points.length ∧
    (normalize_pressure points tmin tmax lo hi).length = points.length := by
  refine ⟨?_, ?_, ?_, ?_⟩
  · simp only [smooth_gaussian]
    split
    · rfl
    split <;> split <;> simp
  · simp only [smooth_moving_average]
    split
    · rfl
    split <;> split <;> simp
  · simp only [straighten_line]
    split
    · rfl
    rename_i h1
    split
    · rfl
    split
    · rfl
    split
    · rfl
    push_neg at h1
    simp only [List.length_cons, List.length_map, List.length_range]
    omega
  · simp only [normalize_pressure]
    split
    · rfl
    split <;> simp

/-- C8 witness: the four length equalities at a concrete three-point stroke. -/
theorem non_rdp_kernels_preserve_length_witness :
    (smooth_gaussian [default, default, default] 5 1).length = 3 ∧
    (smooth_moving_average [default, default, default] 5).length = 3 ∧
    (straighten_line [default, default, default] 15 50 30).length = 3 ∧
    (normalize_pressure [default, default, default] 10 245 5 95).length = 3 :=
  non_rdp_kernels_preserve_length [default, default, default] 5 1 15 50 30 10 245 5 95

/-! ### C3: with no configured API keys, authentication collapses to one tenant -/

/-- C3: when the configured key set is empty, `verify_api_key` accepts every
request — including one with no `X-API-Key` header — and every request is
assigned the tenant identity `"dev_mode"`, so any two callers list exactly
the same jobs: tenant isolation does not hold in this configuration. -/
theorem dev_mode_breaks_tenant_isolation (k1 k2 : Option String) (jobs : List Job)
    (limit : ℕ) :
    verify_api_key [] k1 = .ok "dev_mode" ∧
    tenantOf [] k1 = some "dev_mode" ∧
    tenantOf [] k1 = tenantOf [] k2 ∧
    get_user_jobs jobs ((tenantOf [] k1).getD "") limit =
      get_user_jobs jobs ((tenantOf [] k2).getD "") limit := by
  simp [verify_api_key, tenantOf, get_user_id_from_key]

/-- C3 witness: an absent header and a key of another caller both land in
tenant `"dev_mode"` and see the same job list. -/
theorem dev_mode_breaks_tenant_isolation_witness :
    verify_api_key [] none = .ok "dev_mode" ∧
    tenantOf [] none = some "dev_mode" ∧
    tenantOf [] none = tenantOf [] (some "someone-else") ∧
    get_user_jobs [] ((tenantOf [] none).getD "") 10 =
      get_user_jobs [] ((tenantOf [] (some "someone-else")).getD "") 10 :=
  dev_mode_breaks_tenant_isolation none (some "someone-else") [] 10

/-! ### C4: per-tenant listing -/

instance : IsTotal Job (fun a b : Job => b.created_at ≤ a.created_at) :=
  ⟨fun a b => le_total b.created_at a.created_at⟩

instance : IsTrans Job (fun a b : Job => b.created_at ≤ a.created_at) :=
  ⟨fun _ _ _ h1 h2 => le_trans h2 h1⟩

/-- C4: `get_user_jobs` returns only jobs of the requested tenant (so for
`A ≠ B` the list for `A` has no job of `B`), sorted by `created_at`
descending, and at most `limit` of them. -/
theorem get_user_jobs_isolated_sorted_capped (jobs : List Job) (A : String) (limit : ℕ) :
    (∀ j ∈ get_user_jobs jobs A limit, j.user_id = A) ∧
    (∀ B, A ≠ B → ∀ j ∈ get_user_jobs jobs A limit, j.user_id ≠ B) ∧
    (get_user_jobs jobs A limit).Sorted (fun a b : Job => b.created_at ≤ a.created_at) ∧
    (get_user_jobs jobs A limit).length ≤ limit := by
  have hmem : ∀ j ∈ get_user_jobs jobs A limit, j.user_id = A := by
    intro j hj
    have h1 : j ∈ (jobs.filter (fun j => j.user_id = A)).insertionSort
        (fun a b : Job => b.created_at ≤ a.created_at) :=
      List.take_subset _ _ hj
    have h2 : j ∈ jobs.filter (fun j => j.user_id = A) :=
      (List.perm_insertionSort _ _).subset h1
    exact of_decide_eq_true (List.mem_filter.mp h2).2
  refine ⟨hmem, ?_, ?_, ?_⟩
  · intro B hAB j hj
    rw [hmem j hj]
    exact hAB
  · exact List.Pairwise.sublist (List.take_sublist _ _)
      (List.sorted_insertionSort (fun a b : Job => b.created_at ≤ a.created_at) _)
  · exact (List.length_take _ _).trans_le (min_le_left _ _)

/-- C4 witness: the three properties at a concrete two-tenant queue. -/
theorem get_user_jobs_isolated_sorted_capped_witness :
    (∀ j ∈ get_user_jobs [] "A" 2, j.user_id = "A") ∧
    (∀ B, "A" ≠ B → ∀ j ∈ get_user_jobs [] "A" 2, j.user_id ≠ B) ∧
    (get_user_jobs [] "A" 2).Sorted (fun a b : Job => b.created_at ≤ a.created_at) ∧
    (get_user_jobs [] "A" 2).length ≤ 2 :=
  get_user_jobs_isolated_sorted_capped [] "A" 2

/-! ### C2: pressure-normalization bounds -/

lemma ptAt_map (f : Point → Point) (l : List Point) (i : ℕ) (h : i < l.length) :
    ptAt (l.map f) i = f (ptAt l i) := by
  simp [ptAt, List.getD_eq_getElem?_getD, List.getElem?_map,
    List.getElem?_eq_getElem h]

/-- A point at the origin carrying pressure `pr`. -/
def flatP (pr : ℤ) : Point := ⟨0, 0, 0, 0, 0, pr⟩

/-- Twenty points: one pressure-0 outlier below the 5th-percentile knot,
eighteen at 100, one at 200. -/
def outlierStroke : List Point := flatP 0 :: (List.replicate 18 (flatP 100) ++ [flatP 200])

/-- C2 counterexample: `outlierStroke` is not degenerate (`p_lo = 100 <
200 = p_hi`), yet the output pressure of its first point is `0`, below
`target_min = 10`: the code clamps outliers to `[0, 255]` only, not to
`[target_min, target_max]`. -/
theorem normalize_pressure_outlier_counterexample :
    (pressurePercentiles outlierStroke 5 95).1 = 100 ∧
    (pressurePercentiles outlierStroke 5 95).2 = 200 ∧
    (ptAt (normalize_pressure outlierStroke 10 245 5 95) 0).pressure = 0 ∧
    ¬ (10 : ℤ) ≤ (ptAt (normalize_pressure outlierStroke 10 245 5 95) 0).pressure := by
  decide

/-- C2 amended: every output pressure lies in `[0, 255]` (given integer
targets within `[0, 255]`); and in the non-degenerate case the guarantee
`target_min ≤ output ≤ target_max` holds for the points whose input
pressure lies between the percentile knots `p_lo` and `p_hi` — pressures
outside the knots are clamped to `[0, 255]` only. -/
theorem normalize_pressure_bounds (points : List Point) (tmin tmax lo hi : ℤ)
    (h2 : 2 ≤ points.length) (h0 : 0 ≤ tmin) (h01 : tmin ≤ tmax) (h255 : tmax ≤ 255) :
    (∀ p ∈ normalize_pressure points tmin tmax lo hi, 0 ≤ p.pressure ∧ p.pressure ≤ 255) ∧
    ((pressurePercentiles points lo hi).1 < (pressurePercentiles points lo hi).2 →
      ∀ i, i < points.length →
        (pressurePercentiles points lo hi).1 ≤ (ptAt points i).pressure →
        (ptAt points i).pressure ≤ (pressurePercentiles points lo hi).2 →
        tmin ≤ (ptAt (normalize_pressure points tmin tmax lo hi) i).pressure ∧
        (ptAt (normalize_pressure points tmin tmax lo hi) i).pressure ≤ tmax) := by
  constructor
  · intro p hp
    simp only [normalize_pressure, if_neg (show ¬ points.length < 2 by omega)] at hp
    split at hp
    · obtain ⟨q, _, rfl⟩ := List.mem_map.mp hp
      have hfd : (tmin + tmax).fdiv 2 = (tmin + tmax) / 2 := Int.fdiv_eq_ediv _ (by omega)
      simp only [hfd]
      omega
    · obtain ⟨q, _, rfl⟩ := List.mem_map.mp hp
      dsimp only
      omega
  · intro hlt i hilen hlo hhi
    have hmap : normalize_pressure points tmin tmax lo hi =
        points.map (fun p =>
          { p with pressure := max 0 (min 255 ((tmin * ((pressurePercentiles points lo hi).2 -
              (pressurePercentiles points lo hi).1) +
              (p.pressure - (pressurePercentiles points lo hi).1) * (tmax - tmin)).tdiv
              ((pressurePercentiles points lo hi).2 - (pressurePercentiles points lo hi).1))) }) := by
      rw [normalize_pressure, if_neg (by omega), if_neg (by omega)]
    rw [hmap, ptAt_map _ _ _ hilen]
    dsimp only
    set plo := (pressurePercentiles points lo hi).1 with hplo
    set phi := (pressurePercentiles points lo hi).2 with hphi
    set p := ptAt points i with hp
    have hD : (0 : ℤ) < phi - plo := by omega
    have hN0 : 0 ≤ tmin * (phi - plo) + (p.pressure - plo) * (tmax - tmin) := by
      have h1 : 0 ≤ tmin * (phi - plo) := mul_nonneg h0 hD.le
      have h2 : 0 ≤ (p.pressure - plo) * (tmax - tmin) :=
        mul_nonneg (by omega) (by omega)
      omega
    have htd : (tmin * (phi - plo) + (p.pressure - plo) * (tmax - tmin)).tdiv (phi - plo) =
        (tmin * (phi - plo) + (p.pressure - plo) * (tmax - tmin)) / (phi - plo) :=
      Int.tdiv_eq_ediv hN0 hD.le
    rw [htd]
    have hlb : tmin ≤ (tmin * (phi - plo) + (p.pressure - plo) * (tmax - tmin)) / (phi - plo) := by
      have h1 : tmin * (phi - plo) ≤ tmin * (phi - plo) + (p.pressure - plo) * (tmax - tmin) := by
        have := mul_nonneg (show (0:ℤ) ≤ p.pressure - plo by omega) (show (0:ℤ) ≤ tmax - tmin by omega)
        omega
      have h2 := Int.ediv_le_ediv hD h1
      rwa [Int.mul_ediv_cancel _ (ne_of_gt hD)] at h2
    have hub : (tmin * (phi - plo) + (p.pressure - plo) * (tmax - tmin)) / (phi - plo) ≤ tmax := by
      have h1 : tmin * (phi - plo) + (p.pressure - plo) * (tmax - tmin) ≤ tmax * (phi - plo) := by
        nlinarith [mul_nonneg (show (0:ℤ) ≤ tmax - tmin by omega)
          (show (0:ℤ) ≤ phi - p.pressure by omega)]
      have h2 := Int.ediv_le_ediv hD h1
      rwa [Int.mul_ediv_cancel _ (ne_of_gt hD)] at h2
    omega

/-- C2 witness: the amended bounds at a concrete two-point stroke with
default parameters. -/
theorem normalize_pressure_bounds_witness :
    (∀ p ∈ normalize_pressure [flatP 40, flatP 90] 10 245 5 95,
      0 ≤ p.pressure ∧ p.pressure ≤ 255) ∧
    ((pressurePercentiles [flatP 40, flatP 90] 5 95).1 <
        (pressurePercentiles [flatP 40, flatP 90] 5 95).2 →
      ∀ i, i < ([flatP 40, flatP 90] : List Point).length →
        (pressurePercentiles [flatP 40, flatP 90] 5 95).1 ≤
          (ptAt [flatP 40, flatP 90] i).pressure →
        (ptAt [flatP 40, flatP 90] i).pressure ≤
          (pressurePercentiles [flatP 40, flatP 90] 5 95).2 →
        10 ≤ (ptAt (normalize_pressure [flatP 40, flatP 90] 10 245 5 95) i).pressure ∧
        (ptAt (normalize_pressure [flatP 40, flatP 90] 10 245 5 95) i).pressure ≤ 245) :=
  normalize_pressure_bounds [flatP 40, flatP 90] 10 245 5 95 (by decide) (by decide)
    (by decide) (by decide)

/-! ### C7: the skip policy of `should_process` -/

/-- C7: `should_process` answers `true` only when the path ends in `".rm"`,
the mtime is readable, and that mtime differs both from the in-memory
last-processed mtime (when recorded) and from the sidecar's recorded mtime
(when present and readable). -/
theorem should_process_only_if (fs : FS) (d : Daemon) (path : String)
    (h : (should_process fs d path).1 = true) :
    endsWithRm path = true ∧
    ∃ m, fs.mtime path = some m ∧
      (∀ last, d.processed_mtimes path = some last → m ≠ last) ∧
      (∀ c, fs.marker path = some c → m ≠ c) := by
  by_cases he : endsWithRm path
  · refine ⟨he, ?_⟩
    unfold should_process at h
    rw [if_neg (by simp [he])] at h
    cases hm : fs.mtime path with
    | none => rw [hm] at h; exact absurd h (by simp)
    | some m =>
      rw [hm] at h
      simp only [Option.elim] at h
      refine ⟨m, rfl, ?_, ?_⟩
      · intro last hlast hne
        rw [hlast] at h
        simp only [Option.elim, hne] at h
        rw [if_pos (by simp)] at h
        exact absurd h (by simp)
      · intro c hc hne
        rw [hc] at h
        split at h
        · exact absurd h (by simp)
        · simp only [Option.elim] at h
          rw [if_pos hne.symm] at h
          exact absurd h (by simp)
  · unfold should_process at h
    rw [if_pos (by simp [he])] at h
    exact absurd h (by simp)

/-- A filesystem with one readable scene file and no sidecar. -/
def fsW : FS := ⟨fun _ => none, fun p => if p = "doc.rm" then some 1 else none, fun _ => none⟩

/-- An empty in-memory processed map. -/
def dW : Daemon := ⟨fun _ => none⟩

/-- C7 witness: on a fresh readable `.rm` file the processor decides to
process, and the only-if conditions indeed hold there. -/
theorem should_process_only_if_witness :
    endsWithRm "doc.rm" = true ∧
    ∃ m, fsW.mtime "doc.rm" = some m ∧
      (∀ last, dW.processed_mtimes "doc.rm" = some last → m ≠ last) ∧
      (∀ c, fsW.marker "doc.rm" = some c → m ≠ c) :=
  should_process_only_if fsW dW "doc.rm" (by decide)

/-! ### C1: the two-point diagonal `(200,200),(250,250)` -/

/-- The spec's two-point diagonal stroke, both points carrying pressure `pr`. -/
def twoPoint (pr : ℤ) : List Point := [⟨200, 200, 0, 0, 0, pr⟩, ⟨250, 250, 0, 0, 0, pr⟩]

/-- C1 counterexample: on the two-point diagonal with both pressures 128
(the pressure the spec's wavy-stroke scenario uses), pressure
normalization is **not** the identity: the stroke is degenerate
(`p_lo = p_hi = 128`), so both pressures are rewritten to
`(10+245)//2 = 127`. -/
theorem two_point_normalize_not_identity :
    normalize_pressure (twoPoint 128) 10 245 5 95 ≠ twoPoint 128 :=
  fun h => absurd (congrArg (List.map Point.pressure) h) (by decide)

lemma stroke_length_twoPoint (pr : ℤ) : _stroke_length (twoPoint pr) = Real.sqrt 5000 := by
  show (_ : ℝ) = _
  simp only [twoPoint, _stroke_length, List.tail_cons, List.zip_cons_cons,
    List.zip_nil_right, List.map_cons, List.map_nil, List.sum_cons, List.sum_nil, hypot]
  norm_num

lemma sqrt5000_pos : (0 : ℝ) < Real.sqrt 5000 := Real.sqrt_pos.mpr (by norm_num)

lemma le_sqrt5000 : (50 : ℝ) ≤ Real.sqrt 5000 := by
  have h : (50 : ℝ) = Real.sqrt 2500 := by
    rw [show (2500 : ℝ) = 50 ^ 2 by norm_num, Real.sqrt_sq (by norm_num)]
  rw [h]
  exact Real.sqrt_le_sqrt (by norm_num)

lemma straighten_twoPoint (pr : ℤ) :
    straighten_line (twoPoint pr) 15 50 30 = twoPoint pr := by
  unfold straighten_line
  rw [if_neg (by simp [twoPoint]), if_neg, if_neg, if_neg]
  · have hlen : (twoPoint pr).length = 2 := by simp [twoPoint]
    rw [hlen]
    have htake : (twoPoint pr).take (0 + 2) = twoPoint pr := by simp [twoPoint]
    simp only [show (2:ℕ) - 1 = 1 from rfl, List.range_succ, List.range_zero,
      List.nil_append, List.map_cons, List.map_nil]
    rw [htake, stroke_length_twoPoint, div_self (ne_of_gt sqrt5000_pos)]
    simp only [twoPoint, ptAt, List.getD_cons_zero, List.getD_cons_succ]
    norm_num
  · rw [stroke_length_twoPoint]
    exact ne_of_gt sqrt5000_pos
  · have : _max_deviation (twoPoint pr) = 0 := by
      rw [_max_deviation, if_pos (by simp [twoPoint])]
    rw [this]
    norm_num
  · rw [stroke_length_twoPoint]
    exact not_lt.mpr le_sqrt5000

lemma normalize_twoPoint (pr : ℤ) :
    normalize_pressure (twoPoint pr) 10 245 5 95 = twoPoint 127 := by
  have hpq : pressurePercentiles (twoPoint pr) 5 95 = (pr, pr) := by
    rw [pressurePercentiles]
    have h5 : (10 : ℤ).tdiv 100 = 0 := by decide
    have h95 : (190 : ℤ).tdiv 100 = 1 := by decide
    simp [twoPoint, List.insertionSort, List.orderedInsert, h5, h95]
  rw [normalize_pressure, if_neg (by simp [twoPoint])]
  dsimp only
  rw [hpq]
  rw [if_pos (le_refl pr)]
  simp only [twoPoint, List.map_cons, List.map_nil]
  norm_num
  decide

lemma process_stroke_twoPoint (pr : ℤ) :
    process_stroke (twoPoint pr) defaultConfig = twoPoint 127 := by
  show normalizationStage defaultConfig
    (straighteningStage defaultConfig (smoothingStage defaultConfig (twoPoint pr))) =
      twoPoint 127
  rw [smoothingStage, if_neg (by simp [defaultConfig, twoPoint])]
  rw [straighteningStage, if_pos (by rfl)]
  show normalizationStage defaultConfig (straighten_line (twoPoint pr) 15 50 30) = _
  rw [straighten_twoPoint]
  rw [normalizationStage, if_pos (by rfl)]
  exact normalize_twoPoint pr

/-- A filesystem holding one scene file `"doc.rm"` with a single line-item
block: the two-point diagonal at pressure 127, drawn with tool 0. -/
def fsDiag : FS :=
  ⟨fun p => if p = "doc.rm" then some [Block.lineItem (some ⟨0, twoPoint 127⟩)] else none,
   fun p => if p = "doc.rm" then some 5 else none,
   fun _ => none⟩

/-- A daemon that has processed nothing yet. -/
def dDiag : Daemon := ⟨fun _ => none⟩

lemma processBlock_twoPoint127 :
    processBlock defaultConfig (Block.lineItem (some ⟨0, twoPoint 127⟩)) =
      Block.lineItem (some ⟨0, twoPoint 127⟩) := by
  rw [processBlock]
  rw [if_neg (by simp [_should_process_line, defaultConfig])]
  rw [if_neg (by simp [twoPoint])]
  rw [if_neg]
  simp [process_stroke_twoPoint 127]

/-- C1 amended: on the two-point diagonal with both pressures equal to a
common value `pr`, the geometry kernels (Gaussian, moving average, RDP,
straight-line snap) return the input for every `pr`; pressure normalization
rewrites the stroke to the one with both pressures `(10+245)//2 = 127`, so
normalization — and hence the composed pipeline under the default (medium)
configuration — is the identity exactly for `pr = 127`; and with both
pressures 127, `process_file` reports Unchanged (`false`), leaves the
scene content untouched and only records the processed marker. -/
theorem two_point_diagonal_amended (pr : ℤ) :
    smooth_gaussian (twoPoint pr) 5 1 = twoPoint pr ∧
    smooth_moving_average (twoPoint pr) 5 = twoPoint pr ∧
    simplify_rdp (twoPoint pr) 2 = twoPoint pr ∧
    straighten_line (twoPoint pr) 15 50 30 = twoPoint pr ∧
    normalize_pressure (twoPoint pr) 10 245 5 95 = twoPoint 127 ∧
    process_stroke (twoPoint pr) defaultConfig = twoPoint 127 ∧
    (normalize_pressure (twoPoint pr) 10 245 5 95 = twoPoint pr ↔ pr = 127) ∧
    (process_stroke (twoPoint pr) defaultConfig = twoPoint pr ↔ pr = 127) ∧
    process_file defaultConfig fsDiag dDiag "doc.rm" 99 =
      some (false, (_mark_processed fsDiag dDiag "doc.rm" 5).1,
        (_mark_processed fsDiag dDiag "doc.rm" 5).2) ∧
    (_mark_processed fsDiag dDiag "doc.rm" 5).1.blocks "doc.rm" = fsDiag.blocks "doc.rm" := by
  have hfix : ∀ x : ℤ, twoPoint 127 = twoPoint x ↔ x = 127 := by
    intro x
    constructor
    · intro h
      have hp := congrArg (fun l => (ptAt l 0).pressure) h
      simp only [twoPoint, ptAt, List.getD_cons_zero] at hp
      omega
    · intro h
      rw [h]
  refine ⟨?_, ?_, ?_, straighten_twoPoint pr, normalize_twoPoint pr,
    process_stroke_twoPoint pr, ?_, ?_, ?_, ?_⟩
  · rw [smooth_gaussian, if_pos (by simp [twoPoint])]
  · rw [smooth_moving_average, if_pos (by simp [twoPoint])]
  · rw [simplify_rdp, if_pos (by simp [twoPoint])]
  · rw [normalize_twoPoint pr]
    exact hfix pr
  · rw [process_stroke_twoPoint pr]
    exact hfix pr
  · rw [process_file]
    have hb : fsDiag.blocks "doc.rm" = some [Block.lineItem (some ⟨0, twoPoint 127⟩)] := rfl
    rw [hb]
    dsimp only
    rw [if_neg (by simp [processBlock_twoPoint127])]
    have hm : fsDiag.mtime "doc.rm" = some 5 := rfl
    rw [hm]
    rfl
  · rfl

/-- C1 witness: the amended statement at the concrete pressure 128 used by
the counterexample. -/
theorem two_point_diagonal_amended_witness :
    smooth_gaussian (twoPoint 128) 5 1 = twoPoint 128 ∧
    smooth_moving_average (twoPoint 128) 5 = twoPoint 128 ∧
    simplify_rdp (twoPoint 128) 2 = twoPoint 128 ∧
    straighten_line (twoPoint 128) 15 50 30 = twoPoint 128 ∧
    normalize_pressure (twoPoint 128) 10 245 5 95 = twoPoint 127 ∧
    process_stroke (twoPoint 128) defaultConfig = twoPoint 127 ∧
    (normalize_pressure (twoPoint 128) 10 245 5 95 = twoPoint 128 ↔ (128 : ℤ) = 127) ∧
    (process_stroke (twoPoint 128) defaultConfig = twoPoint 128 ↔ (128 : ℤ) = 127) ∧
    process_file defaultConfig fsDiag dDiag "doc.rm" 99 =
      some (false, (_mark_processed fsDiag dDiag "doc.rm" 5).1,
        (_mark_processed fsDiag dDiag "doc.rm" 5).2) ∧
    (_mark_processed fsDiag dDiag "doc.rm" 5).1.blocks "doc.rm" = fsDiag.blocks "doc.rm" :=
  two_point_diagonal_amended 128

/-! ### C10: duplicate-work suppression -/

lemma mark_processed_suppresses (fs : FS) (d : Daemon) (path : String) (m : ℚ) :
    (_mark_processed fs d path m).1.mtime path = fs.mtime path ∧
    (_mark_processed fs d path m).2.processed_mtimes path = some m ∧
    (_mark_processed fs d path m).1.marker path = some m ∧
    ∀ fs2 : FS, fs2.mtime path = some m →
      (should_process fs2 (_mark_processed fs d path m).2 path).1 = false := by
  refine ⟨rfl, by simp [_mark_processed], by simp [_mark_processed], ?_⟩
  intro fs2 h2
  unfold should_process
  by_cases he : endsWithRm path
  · rw [if_neg (by simp [he]), h2]
    simp [_mark_processed, Option.elim]
  · rw [if_pos (by simp [he])]

/-- C10: a `process_file` call that read its file successfully (and, in
this always-succeeding-write model, completed) records the mtime observed
at the end of the call both in the in-memory map and in the `".inksight"`
sidecar, and as long as the file's mtime stays at that value,
`should_process` answers `false`. -/
theorem process_file_suppresses_reprocessing (config : InkSightConfig) (fs : FS) (d : Daemon)
    (path : String) (nm : ℚ) (bs : List Block) (r : Bool × FS × Daemon)
    (hread : fs.blocks path = some bs)
    (hres : process_file config fs d path nm = some r) :
    ∃ m, r.2.1.mtime path = some m ∧
      r.2.2.processed_mtimes path = some m ∧
      r.2.1.marker path = some m ∧
      ∀ fs2 : FS, fs2.mtime path = some m → (should_process fs2 r.2.2 path).1 = false := by
  rw [process_file, hread] at hres
  dsimp only at hres
  split at hres
  · cases hmt : (_write_safely fs path (bs.map (processBlock config)) nm).mtime path with
    | none => rw [hmt] at hres; exact absurd hres (by simp)
    | some m =>
      rw [hmt] at hres
      simp only [Option.elim] at hres
      injection hres with h
      subst h
      obtain ⟨h1, h2, h3, h4⟩ :=
        mark_processed_suppresses (_write_safely fs path (bs.map (processBlock config)) nm)
          d path m
      exact ⟨m, h1.trans hmt, h2, h3, h4⟩
  · cases hmt : fs.mtime path with
    | none => rw [hmt] at hres; exact absurd hres (by simp)
    | some m =>
      rw [hmt] at hres
      simp only [Option.elim] at hres
      injection hres with h
      subst h
      obtain ⟨h1, h2, h3, h4⟩ := mark_processed_suppresses fs d path m
      exact ⟨m, h1.trans hmt, h2, h3, h4⟩

/-- A filesystem with one scene file with no strokes at all. -/
def fsC10 : FS := ⟨fun _ => some [], fun _ => some 3, fun _ => none⟩

/-- A daemon that has processed nothing yet. -/
def dC10 : Daemon := ⟨fun _ => none⟩

lemma process_file_fsC10 : process_file defaultConfig fsC10 dC10 "a.rm" 9 =
    some (false, (_mark_processed fsC10 dC10 "a.rm" 3).1,
      (_mark_processed fsC10 dC10 "a.rm" 3).2) := by
  rw [process_file, show fsC10.blocks "a.rm" = some [] from rfl]
  dsimp only
  rw [if_neg (by simp)]
  rfl

/-- C10 witness: suppression after processing a concrete (strokeless)
scene file. -/
theorem process_file_suppresses_reprocessing_witness :
    ∃ m, (_mark_processed fsC10 dC10 "a.rm" 3).1.mtime "a.rm" = some m ∧
      (_mark_processed fsC10 dC10 "a.rm" 3).2.processed_mtimes "a.rm" = some m ∧
      (_mark_processed fsC10 dC10 "a.rm" 3).1.marker "a.rm" = some m ∧
      ∀ fs2 : FS, fs2.mtime "a.rm" = some m →
        (should_process fs2 (_mark_processed fsC10 dC10 "a.rm" 3).2 "a.rm").1 = false :=
  process_file_suppresses_reprocessing defaultConfig fsC10 dC10 "a.rm" 9 []
    (false, (_mark_processed fsC10 dC10 "a.rm" 3).1, (_mark_processed fsC10 dC10 "a.rm" 3).2)
    rfl process_file_fsC10

/-! ### C5: the background worker -/

/-- The worker's selection/processing order over `fuel` iterations of the
loop, the `k`-th iteration using clock values `nows k`. -/
def selectionOrder (run : Job → RunResult) (nows : ℕ → ℚ × ℚ) :
    ℕ → List Job → List Job
  | 0, _ => []
  | Nat.succ fuel, jobs =>
    match selectNext jobs with
    | none => []
    | some j => j :: selectionOrder run nows fuel
        (workerIteration jobs run (nows fuel).1 (nows fuel).2)

lemma selectMin_spec (q : Job) (qs : List Job) :
    (qs.foldl (fun best j => if j.created_at < best.created_at then j else best) q) ∈ q :: qs ∧
    (qs.foldl (fun best j => if j.created_at < best.created_at then j else best) q).created_at ≤
      q.created_at ∧
    ∀ k ∈ qs,
      (qs.foldl (fun best j => if j.created_at < best.created_at then j else best) q).created_at ≤
        k.created_at := by
  induction qs generalizing q with
  | nil => exact ⟨List.mem_cons_self q [], le_refl _, by simp⟩
  | cons a as ih =>
    obtain ⟨h1, h2, h3⟩ := ih (if a.created_at < q.created_at then a else q)
    rw [List.foldl_cons]
    refine ⟨?_, ?_, ?_⟩
    · rcases List.mem_cons.mp h1 with h | h
      · rw [h]
        split
        · exact List.mem_cons_of_mem _ (List.mem_cons_self a as)
        · exact List.mem_cons_self q _
      · exact List.mem_cons_of_mem _ (List.mem_cons_of_mem _ h)
    · refine le_trans h2 ?_
      split
      · exact le_of_lt (by assumption)
      · exact le_refl _
    · intro k hk
      rcases List.mem_cons.mp hk with rfl | hk2
      · refine le_trans h2 ?_
        split
        · exact le_refl _
        · exact le_of_not_lt (by assumption)
      · exact h3 k hk2

lemma selectNext_spec (jobs : List Job) (j : Job) (h : selectNext jobs = some j) :
    j ∈ jobs ∧ j.status = JobStatus.queued ∧
    ∀ k ∈ jobs, k.status = JobStatus.queued → j.created_at ≤ k.created_at := by
  unfold selectNext at h
  cases hf : jobs.filter (fun j => j.status = JobStatus.queued) with
  | nil => rw [hf] at h; exact absurd h (by simp)
  | cons q qs =>
    rw [hf] at h
    injection h with h
    obtain ⟨h1, h2, h3⟩ := selectMin_spec q qs
    rw [h] at h1 h2 h3
    have hjf : j ∈ jobs.filter (fun j => j.status = JobStatus.queued) := by
      rw [hf]; exact h1
    have hmem := List.mem_filter.mp hjf
    refine ⟨hmem.1, of_decide_eq_true hmem.2, ?_⟩
    intro k hk hkq
    have hkf : k ∈ jobs.filter (fun j => j.status = JobStatus.queued) :=
      List.mem_filter.mpr ⟨hk, decide_eq_true hkq⟩
    rw [hf] at hkf
    rcases List.mem_cons.mp hkf with rfl | hk2
    · exact h2
    · exact h3 k hk2

lemma selectNext_of_queued (jobs : List Job) (k : Job) (hk : k ∈ jobs)
    (hq : k.status = JobStatus.queued) : selectNext jobs ≠ none := by
  unfold selectNext
  cases hf : jobs.filter (fun j => j.status = JobStatus.queued) with
  | nil =>
    have : k ∈ jobs.filter (fun j => j.status = JobStatus.queued) :=
      List.mem_filter.mpr ⟨hk, decide_eq_true hq⟩
    rw [hf] at this
    exact absurd this (by simp)
  | cons q qs => simp

lemma applyResult_job_id (j : Job) (res : RunResult) (n : ℚ) :
    (applyResult j res n).job_id = j.job_id := by
  cases res <;> rfl

lemma applyResult_status (j : Job) (res : RunResult) (n : ℚ) :
    (applyResult j res n).status = JobStatus.completed ∨
    (applyResult j res n).status = JobStatus.failed := by
  cases res
  · exact Or.inl rfl
  · exact Or.inr rfl

lemma workerIteration_queued_subset (jobs : List Job) (run : Job → RunResult) (n1 n2 : ℚ)
    (k : Job) (hk : k ∈ workerIteration jobs run n1 n2) (hq : k.status = JobStatus.queued) :
    k ∈ jobs := by
  unfold workerIteration at hk
  cases hs : selectNext jobs with
  | none => rw [hs] at hk; exact hk
  | some j =>
    rw [hs] at hk
    unfold process_job update_job at hk
    dsimp only at hk
    obtain ⟨y, hy, hky⟩ := List.mem_map.mp hk
    obtain ⟨x, hx, hyx⟩ := List.mem_map.mp hy
    by_cases hxid : x.job_id = (markProcessing j n1).job_id
    · rw [if_pos hxid] at hyx
      subst hyx
      rw [if_pos (applyResult_job_id (markProcessing j n1) (run (markProcessing j n1)) n2).symm]
        at hky
      exfalso
      rcases applyResult_status (markProcessing j n1) (run (markProcessing j n1)) n2 with
        h | h <;> rw [hky, hq] at h <;> exact absurd h (by simp)
    · rw [if_neg hxid] at hyx
      subst hyx
      rw [if_neg (by rw [applyResult_job_id]; exact hxid)] at hky
      subst hky
      exact hx

lemma selectionOrder_mem (run : Job → RunResult) (nows : ℕ → ℚ × ℚ) :
    ∀ (fuel : ℕ) (jobs : List Job) (k : Job), k ∈ selectionOrder run nows fuel jobs →
      k ∈ jobs ∧ k.status = JobStatus.queued
  | 0, jobs, k, h => absurd h (by simp [selectionOrder])
  | Nat.succ fuel, jobs, k, h => by
    rw [selectionOrder] at h
    cases hs : selectNext jobs with
    | none => rw [hs] at h; exact absurd h (by simp)
    | some j =>
      rw [hs] at h
      rcases List.mem_cons.mp h with rfl | h2
      · exact ⟨(selectNext_spec jobs k hs).1, (selectNext_spec jobs k hs).2.1⟩
      · obtain ⟨hmem, hq⟩ := selectionOrder_mem run nows fuel _ k h2
        exact ⟨workerIteration_queued_subset jobs run _ _ k hmem hq, hq⟩

lemma selectionOrder_sorted (run : Job → RunResult) (nows : ℕ → ℚ × ℚ) :
    ∀ (fuel : ℕ) (jobs : List Job),
      (selectionOrder run nows fuel jobs).Sorted (fun a b : Job => a.created_at ≤ b.created_at)
  | 0, _ => by simp [selectionOrder]
  | Nat.succ fuel, jobs => by
    rw [selectionOrder]
    cases hs : selectNext jobs with
    | none => simp
    | some j =>
      rw [List.sorted_cons]
      refine ⟨?_, selectionOrder_sorted run nows fuel _⟩
      intro b hb
      obtain ⟨hbmem, hbq⟩ := selectionOrder_mem run nows fuel _ b hb
      have hbjobs := workerIteration_queued_subset jobs run _ _ b hbmem hbq
      exact (selectNext_spec jobs j hs).2.2 b hbjobs hbq

lemma process_job_processing_counts (jobs : List Job) (j : Job) (run : Job → RunResult)
    (now now2 : ℚ) (hnd : (jobs.map Job.job_id).Nodup)
    (h0 : ∀ k ∈ jobs, k.status ≠ JobStatus.processing) :
    (process_job jobs j run now now2).1.countP
        (fun k => k.status = JobStatus.processing) ≤ 1 ∧
    (process_job jobs j run now now2).2.countP
        (fun k => k.status = JobStatus.processing) = 0 := by
  constructor
  · show (update_job jobs (markProcessing j now)).countP _ ≤ 1
    unfold update_job
    rw [List.countP_map]
    have hle : jobs.countP (fun x => decide
        ((if x.job_id = (markProcessing j now).job_id then markProcessing j now else x).status =
          JobStatus.processing)) ≤
        jobs.countP (fun x => x.job_id == j.job_id) := by
      apply List.countP_mono_left
      intro x hx hcond
      by_cases hid : x.job_id = (markProcessing j now).job_id
      · simpa [markProcessing] using hid
      · rw [if_neg hid] at hcond
        exact absurd (of_decide_eq_true hcond) (h0 x hx)
    refine le_trans hle ?_
    have hcount : jobs.countP (fun x => x.job_id == j.job_id) =
        (jobs.map Job.job_id).count j.job_id := by
      rw [List.count, List.countP_map]
      rfl
    rw [hcount]
    exact List.nodup_iff_count_le_one.mp hnd _
  · show (update_job (update_job jobs (markProcessing j now)) _).countP _ = 0
    unfold update_job
    rw [List.countP_map, List.countP_map]
    rw [List.countP_eq_zero]
    intro x hx
    simp only [Function.comp_apply]
    by_cases hid : x.job_id = (markProcessing j now).job_id
    · rw [if_pos hid,
        if_pos (applyResult_job_id (markProcessing j now) (run (markProcessing j now)) now2).symm]
      rcases applyResult_status (markProcessing j now) (run (markProcessing j now)) now2 with
        h | h <;> simp [h]
    · rw [if_neg hid, if_neg (by rw [applyResult_job_id]; exact hid)]
      simpa using h0 x hx

/-- C5: whenever some job is queued the worker selects one — the queued job
with minimum `created_at` (first of equal minima, as Python's `min`) — and
the queue state handed to the processor is the one in which that job has
been transitioned to `Processing` with `started_at = now` and
`progress = 10`; consequently jobs are executed in FIFO order by
`created_at`, and (with distinct job ids and no job initially processing)
at most one job is `Processing` at any point of an iteration, none at its
end. -/
theorem worker_fifo_single_processing :
    (∀ (jobs : List Job) (k : Job), k ∈ jobs → k.status = JobStatus.queued →
      selectNext jobs ≠ none) ∧
    (∀ (jobs : List Job) (j : Job), selectNext jobs = some j →
      j ∈ jobs ∧ j.status = JobStatus.queued ∧
      ∀ k ∈ jobs, k.status = JobStatus.queued → j.created_at ≤ k.created_at) ∧
    (∀ (j : Job) (now : ℚ),
      (markProcessing j now).status = JobStatus.processing ∧
      (markProcessing j now).started_at = some now ∧
      (markProcessing j now).progress = 10 ∧
      (markProcessing j now).created_at = j.created_at ∧
      (markProcessing j now).job_id = j.job_id) ∧
    (∀ (jobs : List Job) (j : Job) (run : Job → RunResult) (now now2 : ℚ),
      (process_job jobs j run now now2).1 = update_job jobs (markProcessing j now)) ∧
    (∀ (jobs : List Job) (j : Job) (run : Job → RunResult) (now now2 : ℚ),
      (jobs.map Job.job_id).Nodup → (∀ k ∈ jobs, k.status ≠ JobStatus.processing) →
      (process_job jobs j run now now2).1.countP
          (fun k => k.status = JobStatus.processing) ≤ 1 ∧
      (process_job jobs j run now now2).2.countP
          (fun k => k.status = JobStatus.processing) = 0) ∧
    (∀ (run : Job → RunResult) (nows : ℕ → ℚ × ℚ) (fuel : ℕ) (jobs : List Job),
      (selectionOrder run nows fuel jobs).Sorted
        (fun a b : Job => a.created_at ≤ b.created_at)) :=
  ⟨selectNext_of_queued,
   selectNext_spec,
   fun _ _ => ⟨rfl, rfl, rfl, rfl, rfl⟩,
   fun _ _ _ _ _ => rfl,
   fun jobs j run now now2 hnd h0 => process_job_processing_counts jobs j run now now2 hnd h0,
   fun run nows fuel jobs => selectionOrder_sorted run nows fuel jobs⟩

/-! ### C9: RDP idempotence -/

lemma ptAt_eq_getElem (l : List Point) (i : ℕ) (h : i < l.length) : ptAt l i = l[i] :=
  List.getD_eq_getElem l default h

/-- What the scan loop guarantees once the indices `1 .. K` have been
examined: the accumulator is `(0, 0)` if no positive distance was seen,
and otherwise holds the distance of the first interior index attaining the
running maximum. -/
def ScanInv (l : List Point) (K : ℕ) (md : ℝ × ℕ) : Prop :=
  0 ≤ md.1 ∧
  (md.2 = 0 → md.1 = 0) ∧
  (md.2 ≠ 0 → 1 ≤ md.2 ∧ md.2 ≤ K ∧ md.1 = distToEnds l md.2 ∧ 0 < md.1) ∧
  (∀ i, 1 ≤ i → i ≤ K → distToEnds l i ≤ md.1) ∧
  (∀ i, 1 ≤ i → i < md.2 → distToEnds l i < md.1)

lemma scanInv_fold (l : List Point) : ∀ K : ℕ,
    ScanInv l K ((List.range K).foldl (rdpStep l) (0, 0))
  | 0 => by
    refine ⟨le_refl 0, fun _ => rfl, fun h => absurd rfl h, ?_, ?_⟩
    · intro i h1 h2
      omega
    · intro i h1 h2
      simp at h2
  | Nat.succ K => by
    obtain ⟨i1, i2, i3, i4, i5⟩ := scanInv_fold l K
    rw [List.range_succ, List.foldl_append, List.foldl_cons, List.foldl_nil, rdpStep]
    split
    case isTrue hlt =>
      refine ⟨le_trans i1 (le_of_lt hlt), by simp, fun _ => ⟨by omega, le_refl _, rfl,
        lt_of_le_of_lt i1 hlt⟩, ?_, ?_⟩
      · intro i h1 h2
        rcases Nat.lt_or_ge i (K + 1) with h | h
        · exact le_trans (i4 i h1 (by omega)) (le_of_lt hlt)
        · have hi : i = K + 1 := by omega
          subst hi
          exact le_refl _
      · intro i h1 h2
        simp only [] at h2
        exact lt_of_le_of_lt (i4 i h1 (by omega)) hlt
    case isFalse hge =>
      refine ⟨i1, i2, fun h => ?_, ?_, i5⟩
      · obtain ⟨a, b, c, e⟩ := i3 h
        exact ⟨a, by omega, c, e⟩
      · intro i h1 h2
        rcases Nat.lt_or_ge i (K + 1) with h | h
        · exact i4 i h1 (by omega)
        · have hi : i = K + 1 := by omega
          subst hi
          exact le_of_not_lt hge

lemma scan_fold_below (l : List Point) (j : ℕ) (D : ℝ) (hD : 0 < D)
    (hbefore : ∀ i, 1 ≤ i → i < j → distToEnds l i < D) :
    ∀ k, k < j → ((List.range k).foldl (rdpStep l) (0, 0)).1 < D
  | 0, _ => hD
  | Nat.succ k, h => by
    rw [List.range_succ, List.foldl_append, List.foldl_cons, List.foldl_nil, rdpStep]
    split
    · exact hbefore (k + 1) (by omega) (by omega)
    · exact scan_fold_below l j D hD hbefore k (by omega)

lemma scan_fold_determined (l : List Point) (j : ℕ) (D : ℝ) (hD : 0 < D) (h1 : 1 ≤ j)
    (hj : distToEnds l j = D)
    (hbefore : ∀ i, 1 ≤ i → i < j → distToEnds l i < D) :
    ∀ K, j ≤ K → (∀ i, 1 ≤ i → i ≤ K → distToEnds l i ≤ D) →
      (List.range K).foldl (rdpStep l) (0, 0) = (D, j) := by
  intro K
  induction K with
  | zero => intro h; omega
  | succ K ih =>
    intro hK hmax
    rw [List.range_succ, List.foldl_append, List.foldl_cons, List.foldl_nil]
    rcases Nat.lt_or_ge j (K + 1) with hlt | hge
    · have heq := ih (by omega) (fun i a b => hmax i a (by omega))
      rw [heq, rdpStep]
      rw [if_neg]
      simp only []
      exact not_lt.mpr (hmax (K + 1) (by omega) (le_refl _))
    · have hj' : j = K + 1 := by omega
      have hbelow := scan_fold_below l j D hD hbefore K (by omega)
      rw [rdpStep, ← hj', hj]
      rw [if_pos hbelow]

lemma rdp_length (l : List Point) (ε : ℝ) (h2 : 2 ≤ l.length) :
    2 ≤ (simplify_rdp l ε).length := by
  rw [simplify_rdp]
  split
  · exact h2
  rename_i hlen
  split
  · split
    · rename_i hm
      have hL := rdp_length (l.take ((rdpScan l).2 + 1)) ε (by simp; omega)
      have hR := rdp_length (l.drop (rdpScan l).2) ε (by simp; omega)
      simp only [List.length_append, List.length_dropLast]
      omega
    · simp
  · simp
termination_by l.length
decreasing_by
  · simp only [List.length_take]
    omega
  · simp only [List.length_drop]
    omega

lemma rdp_first (l : List Point) (ε : ℝ) :
    ptAt (simplify_rdp l ε) 0 = ptAt l 0 := by
  rw [simplify_rdp]
  split
  · rfl
  rename_i hlen
  split
  · split
    · rename_i hm
      have hAlen : (l.take ((rdpScan l).2 + 1)).length = (rdpScan l).2 + 1 := by
        simp only [List.length_take]
        omega
      have hL2 := rdp_length (l.take ((rdpScan l).2 + 1)) ε (by omega)
      have hF := rdp_first (l.take ((rdpScan l).2 + 1)) ε
      have hlen2 : 0 < ((simplify_rdp (l.take ((rdpScan l).2 + 1)) ε).dropLast ++
          simplify_rdp (l.drop (rdpScan l).2) ε).length := by
        simp only [List.length_append, List.length_dropLast]
        omega
      rw [ptAt_eq_getElem _ 0 hlen2,
        List.getElem_append_left (by simp only [List.length_dropLast]; omega),
        List.getElem_dropLast]
      rw [ptAt_eq_getElem _ 0 (by omega)] at hF
      rw [hF, ptAt_eq_getElem _ 0 (by omega), ptAt_eq_getElem _ 0 (by omega),
        List.getElem_take]
    · rfl
  · rfl
termination_by l.length
decreasing_by
  · simp only [List.length_take]
    omega

lemma rdp_last (l : List Point) (ε : ℝ) :
    ptAt (simplify_rdp l ε) ((simplify_rdp l ε).length - 1) = ptAt l (l.length - 1) := by
  rw [simplify_rdp]
  split
  · rfl
  rename_i hlen
  split
  · split
    · rename_i hm
      have hBlen : (l.drop (rdpScan l).2).length = l.length - (rdpScan l).2 := by
        simp only [List.length_drop]
      have hL2 := rdp_length (l.take ((rdpScan l).2 + 1)) ε (by simp; omega)
      have hR2 := rdp_length (l.drop (rdpScan l).2) ε (by simp; omega)
      have hLast := rdp_last (l.drop (rdpScan l).2) ε
      have hlenR : ((simplify_rdp (l.take ((rdpScan l).2 + 1)) ε).dropLast ++
          simplify_rdp (l.drop (rdpScan l).2) ε).length =
          (simplify_rdp (l.take ((rdpScan l).2 + 1)) ε).length - 1 +
            (simplify_rdp (l.drop (rdpScan l).2) ε).length := by
        simp [List.length_append, List.length_dropLast]
      rw [hlenR, ptAt_eq_getElem _ _ (by omega),
        List.getElem_append_right (by simp only [List.length_dropLast]; omega)]
      have hdropLast : ptAt (l.drop (rdpScan l).2) ((l.drop (rdpScan l).2).length - 1) =
          ptAt l (l.length - 1) := by
        rw [ptAt_eq_getElem _ _ (by simp only [List.length_drop]; omega),
          ptAt_eq_getElem _ _ (by omega), List.getElem_drop]
        congr 1
        simp only [List.length_drop]
        omega
      rw [ptAt_eq_getElem _ _ (by omega), hdropLast] at hLast
      rw [← hLast]
      congr 1
      simp only [List.length_dropLast]
      omega
    · rfl
  · rfl
termination_by l.length
decreasing_by
  · simp only [List.length_drop]
    omega

lemma getElem_mem_interior (xs : List Point) (i : ℕ) (h1 : 1 ≤ i) (h2 : i + 1 < xs.length) :
    ptAt xs i ∈ (xs.drop 1).dropLast := by
  rw [ptAt_eq_getElem xs i (by omega)]
  apply List.mem_iff_getElem.mpr
  have hlen2 : ((xs.drop 1).dropLast).length = xs.length - 2 := by
    simp only [List.length_dropLast, List.length_drop]
    omega
  refine ⟨i - 1, by omega, ?_⟩
  rw [List.getElem_dropLast, List.getElem_drop]
  congr 1
  omega

lemma interior_mem (xs : List Point) (q : Point) (hq : q ∈ (xs.drop 1).dropLast) :
    ∃ k, 1 ≤ k ∧ k + 1 < xs.length ∧ q = ptAt xs k := by
  obtain ⟨i, hi, hqi⟩ := List.mem_iff_getElem.mp hq
  have hlen : i + 2 < xs.length := by
    simp only [List.length_dropLast, List.length_drop] at hi
    omega
  refine ⟨i + 1, by omega, by omega, ?_⟩
  rw [ptAt_eq_getElem xs (i + 1) (by omega), ← hqi, List.getElem_dropLast,
    List.getElem_drop]
  congr 1
  omega

lemma rdp_interior (l : List Point) (ε : ℝ) (q : Point)
    (hq : q ∈ ((simplify_rdp l ε).drop 1).dropLast) :
    ∃ k, 1 ≤ k ∧ k + 1 < l.length ∧ q = ptAt l k := by
  rw [simplify_rdp] at hq
  split at hq
  · exact interior_mem l q hq
  rename_i hlen
  split at hq
  · split at hq
    · rename_i hm
      have hL2 := rdp_length (l.take ((rdpScan l).2 + 1)) ε
        (by simp only [List.length_take]; omega)
      have hR2 := rdp_length (l.drop (rdpScan l).2) ε
        (by simp only [List.length_drop]; omega)
      obtain ⟨k, hk1, hk2, hkq⟩ := interior_mem _ q hq
      rw [List.length_append, List.length_dropLast] at hk2
      rcases Nat.lt_trichotomy k ((simplify_rdp (l.take ((rdpScan l).2 + 1)) ε).length - 1)
        with hcase | hcase | hcase
      · -- inside the left part
        have hqL : q = ptAt (simplify_rdp (l.take ((rdpScan l).2 + 1)) ε) k := by
          rw [hkq, ptAt_eq_getElem _ k (by simp [List.length_append, List.length_dropLast]; omega),
            List.getElem_append_left (by simp only [List.length_dropLast]; omega),
            List.getElem_dropLast, ptAt_eq_getElem _ k (by omega)]
        have hqmem : q ∈ ((simplify_rdp (l.take ((rdpScan l).2 + 1)) ε).drop 1).dropLast := by
          rw [hqL]
          exact getElem_mem_interior _ k hk1 (by omega)
        obtain ⟨k2, hk21, hk22, hk2q⟩ := rdp_interior (l.take ((rdpScan l).2 + 1)) ε q hqmem
        rw [List.length_take] at hk22
        refine ⟨k2, hk21, by omega, ?_⟩
        rw [hk2q, ptAt_eq_getElem _ k2 (by simp only [List.length_take]; omega),
          ptAt_eq_getElem _ k2 (by omega), List.getElem_take]
      · -- the junction: the split point itself
        have hqj : q = ptAt (simplify_rdp (l.drop (rdpScan l).2) ε) 0 := by
          rw [hkq, ptAt_eq_getElem _ k (by simp [List.length_append, List.length_dropLast]; omega),
            List.getElem_append_right (by simp only [List.length_dropLast]; omega),
            ptAt_eq_getElem _ 0 (by omega)]
          congr 1
          simp only [List.length_dropLast]
          omega
        refine ⟨(rdpScan l).2, hm.1, by omega, ?_⟩
        rw [hqj, rdp_first, ptAt_eq_getElem _ 0 (by simp only [List.length_drop]; omega),
          ptAt_eq_getElem _ _ (by omega), List.getElem_drop]
        rfl
      · -- inside the right part
        have hp1 : 1 ≤ k - ((simplify_rdp (l.take ((rdpScan l).2 + 1)) ε).length - 1) := by
          omega
        have hqR : q = ptAt (simplify_rdp (l.drop (rdpScan l).2) ε)
            (k - ((simplify_rdp (l.take ((rdpScan l).2 + 1)) ε).length - 1)) := by
          rw [hkq, ptAt_eq_getElem _ k (by simp [List.length_append, List.length_dropLast]; omega),
            List.getElem_append_right (by simp only [List.length_dropLast]; omega),
            ptAt_eq_getElem _ _ (by omega)]
          congr 1
          simp only [List.length_dropLast]
        have hqmem : q ∈ ((simplify_rdp (l.drop (rdpScan l).2) ε).drop 1).dropLast := by
          rw [hqR]
          exact getElem_mem_interior _ _ hp1 (by omega)
        obtain ⟨k2, hk21, hk22, hk2q⟩ := rdp_interior (l.drop (rdpScan l).2) ε q hqmem
        rw [List.length_drop] at hk22
        refine ⟨(rdpScan l).2 + k2, by omega, by omega, ?_⟩
        rw [hk2q, ptAt_eq_getElem _ k2 (by simp only [List.length_drop]; omega),
          ptAt_eq_getElem _ _ (by omega), List.getElem_drop]
    · -- the two-endpoint result has no interior point
      simp at hq
  · simp at hq
termination_by l.length
decreasing_by
  · simp only [List.length_take]
    omega
  · simp only [List.length_drop]
    omega

/-- C9: RDP simplification is idempotent: re-running `simplify_rdp` on its
own output returns that output unchanged, for every stroke and every
`ε ≥ 0` (for `ε < 0` — which no configuration uses — the Python recursion
does not terminate when every interior point lies on the end segment). -/
theorem simplify_rdp_idempotent (l : List Point) (ε : ℝ) (hε : 0 ≤ ε) :
    simplify_rdp (simplify_rdp l ε) ε = simplify_rdp l ε := by
  by_cases h3 : l.length < 3
  · have hc : simplify_rdp l ε = l := by rw [simplify_rdp, if_pos h3]
    rw [hc]
    exact hc
  by_cases hsplit : ε < (rdpScan l).1
  case neg =>
    have hc : simplify_rdp l ε = [ptAt l 0, ptAt l (l.length - 1)] := by
      rw [simplify_rdp, if_neg h3, if_neg hsplit]
    rw [hc, simplify_rdp, if_pos (by simp)]
  case pos =>
    obtain ⟨i1, i2, i3, i4, i5⟩ := scanInv_fold l (l.length - 2)
    have hscan_def : rdpScan l = (List.range (l.length - 2)).foldl (rdpStep l) (0, 0) := rfl
    rw [← hscan_def] at i1 i2 i3 i4 i5
    have hd_pos : 0 < (rdpScan l).1 := lt_of_le_of_lt hε hsplit
    have hm0 : (rdpScan l).2 ≠ 0 := by
      intro h
      rw [show (rdpScan l).1 = 0 from i2 h] at hd_pos
      exact lt_irrefl 0 hd_pos
    obtain ⟨hm1, hm2, hmd, _⟩ := i3 hm0
    have hguard : 1 ≤ (rdpScan l).2 ∧ (rdpScan l).2 ≤ l.length - 2 := ⟨hm1, hm2⟩
    have hc : simplify_rdp l ε =
        (simplify_rdp (l.take ((rdpScan l).2 + 1)) ε).dropLast ++
          simplify_rdp (l.drop (rdpScan l).2) ε := by
      rw [simplify_rdp, if_neg h3, if_pos hsplit, dif_pos hguard]
    have hA : (l.take ((rdpScan l).2 + 1)).length = (rdpScan l).2 + 1 := by
      simp only [List.length_take]
      omega
    have hB : (l.drop (rdpScan l).2).length = l.length - (rdpScan l).2 :=
      List.length_drop _ _
    have ihA := simplify_rdp_idempotent (l.take ((rdpScan l).2 + 1)) ε hε
    have ihB := simplify_rdp_idempotent (l.drop (rdpScan l).2) ε hε
    obtain ⟨L, hL⟩ : ∃ L, simplify_rdp (l.take ((rdpScan l).2 + 1)) ε = L := ⟨_, rfl⟩
    obtain ⟨Rt, hRt⟩ : ∃ Rt, simplify_rdp (l.drop (rdpScan l).2) ε = Rt := ⟨_, rfl⟩
    rw [hL] at ihA
    rw [hRt] at ihB
    have hL2 : 2 ≤ L.length := by
      rw [← hL]
      exact rdp_length _ ε (by omega)
    have hR2 : 2 ≤ Rt.length := by
      rw [← hRt]
      exact rdp_length _ ε (by rw [hB]; omega)
    have hL0 : ptAt L 0 = ptAt l 0 := by
      rw [← hL, rdp_first, ptAt_eq_getElem _ 0 (by omega), ptAt_eq_getElem _ 0 (by omega),
        List.getElem_take]
    have hLlast : ptAt L (L.length - 1) = ptAt l (rdpScan l).2 := by
      rw [← hL, rdp_last, hA, ptAt_eq_getElem _ _ (by omega), ptAt_eq_getElem _ _ (by omega),
        List.getElem_take]
      congr 1
    have hRt0 : ptAt Rt 0 = ptAt l (rdpScan l).2 := by
      rw [← hRt, rdp_first, ptAt_eq_getElem _ 0 (by rw [hB]; omega),
        ptAt_eq_getElem _ _ (by omega), List.getElem_drop]
      congr 1
    have hRtlast : ptAt Rt (Rt.length - 1) = ptAt l (l.length - 1) := by
      rw [← hRt, rdp_last, hB, ptAt_eq_getElem _ _ (by rw [hB]; omega),
        ptAt_eq_getElem _ _ (by omega), List.getElem_drop]
      congr 1
      omega
    rw [hc, hL, hRt]
    have hRlen : (L.dropLast ++ Rt).length = L.length - 1 + Rt.length := by
      simp only [List.length_append, List.length_dropLast]
    have hR0 : ptAt (L.dropLast ++ Rt) 0 = ptAt l 0 := by
      rw [ptAt_eq_getElem _ 0 (by rw [hRlen]; omega),
        List.getElem_append_left (by simp only [List.length_dropLast]; omega),
        List.getElem_dropLast, ← ptAt_eq_getElem _ 0 (by omega)]
      exact hL0
    have hRlastEq : ptAt (L.dropLast ++ Rt) ((L.dropLast ++ Rt).length - 1) =
        ptAt l (l.length - 1) := by
      rw [ptAt_eq_getElem _ _ (by rw [hRlen]; omega),
        List.getElem_append_right (by simp only [List.length_dropLast]; rw [hRlen]; omega)]
      rw [← hRtlast, ptAt_eq_getElem _ _ (by omega)]
      congr 1
      rw [hRlen]
      simp only [List.length_dropLast]
      omega
    have hjunc : ptAt (L.dropLast ++ Rt) (L.length - 1) = ptAt l (rdpScan l).2 := by
      rw [ptAt_eq_getElem _ _ (by rw [hRlen]; omega),
        List.getElem_append_right (by simp only [List.length_dropLast]; omega),
        ← hRt0, ptAt_eq_getElem Rt 0 (by omega)]
      congr 1
      simp only [List.length_dropLast]
      omega
    have hdR : ∀ i, distToEnds (L.dropLast ++ Rt) i =
        _perpendicular_distance (ptAt (L.dropLast ++ Rt) i) (ptAt l 0)
          (ptAt l (l.length - 1)) := by
      intro i
      rw [distToEnds, hR0, hRlastEq]
    have hdj : distToEnds (L.dropLast ++ Rt) (L.length - 1) = (rdpScan l).1 := by
      rw [hdR, hjunc, hmd, distToEnds]
    have hbefore : ∀ i, 1 ≤ i → i < L.length - 1 →
        distToEnds (L.dropLast ++ Rt) i < (rdpScan l).1 := by
      intro i hi1 hi2
      rw [hdR]
      have hRi : ptAt (L.dropLast ++ Rt) i = ptAt L i := by
        rw [ptAt_eq_getElem _ i (by rw [hRlen]; omega),
          List.getElem_append_left (by simp only [List.length_dropLast]; omega),
          List.getElem_dropLast, ← ptAt_eq_getElem _ i (by omega)]
      rw [hRi]
      have hmem : ptAt L i ∈ (L.drop 1).dropLast := getElem_mem_interior L i hi1 (by omega)
      rw [← hL] at hmem
      obtain ⟨k, hk1, hk2, hkq⟩ := rdp_interior _ ε _ hmem
      rw [hL] at hkq
      rw [hA] at hk2
      have hkl : ptAt (l.take ((rdpScan l).2 + 1)) k = ptAt l k := by
        rw [ptAt_eq_getElem _ k (by omega), ptAt_eq_getElem _ k (by omega), List.getElem_take]
      rw [hkq, hkl]
      have hlt := i5 k hk1 (by omega)
      rw [distToEnds] at hlt
      exact hlt
    have hmax : ∀ i, 1 ≤ i → i ≤ (L.dropLast ++ Rt).length - 2 →
        distToEnds (L.dropLast ++ Rt) i ≤ (rdpScan l).1 := by
      intro i hi1 hi2
      rw [hRlen] at hi2
      rcases Nat.lt_trichotomy i (L.length - 1) with hcase | hcase | hcase
      · exact le_of_lt (hbefore i hi1 hcase)
      · subst hcase
        rw [hdj]
      · rw [hdR]
        have hRi : ptAt (L.dropLast ++ Rt) i = ptAt Rt (i - (L.length - 1)) := by
          rw [ptAt_eq_getElem _ i (by rw [hRlen]; omega),
            List.getElem_append_right (by simp only [List.length_dropLast]; omega),
            ← ptAt_eq_getElem _ _ (by simp only [List.length_dropLast]; omega)]
          congr 1
          simp only [List.length_dropLast]
        rw [hRi]
        have hmem : ptAt Rt (i - (L.length - 1)) ∈ (Rt.drop 1).dropLast :=
          getElem_mem_interior Rt _ (by omega) (by omega)
        rw [← hRt] at hmem
        obtain ⟨k, hk1, hk2, hkq⟩ := rdp_interior _ ε _ hmem
        rw [hRt] at hkq
        rw [hB] at hk2
        have hkl : ptAt (l.drop (rdpScan l).2) k = ptAt l ((rdpScan l).2 + k) := by
          rw [ptAt_eq_getElem _ k (by rw [hB]; omega), ptAt_eq_getElem _ _ (by omega),
            List.getElem_drop]
        rw [hkq, hkl]
        have hle := i4 ((rdpScan l).2 + k) (by omega) (by omega)
        rw [distToEnds] at hle
        exact hle
    have hscanR : rdpScan (L.dropLast ++ Rt) = ((rdpScan l).1, L.length - 1) := by
      show (List.range ((L.dropLast ++ Rt).length - 2)).foldl (rdpStep (L.dropLast ++ Rt))
        (0, 0) = _
      exact scan_fold_determined (L.dropLast ++ Rt) (L.length - 1) ((rdpScan l).1) hd_pos
        (by omega) hdj hbefore ((L.dropLast ++ Rt).length - 2) (by rw [hRlen]; omega) hmax
    obtain ⟨r0, rt, rfl⟩ : ∃ r0 rt, Rt = r0 :: rt := by
      cases Rt with
      | nil => simp at hR2
      | cons a b => exact ⟨a, b, rfl⟩
    have hLne : L ≠ [] := by
      intro h
      rw [h] at hL2
      simp at hL2
    have htake : (L.dropLast ++ r0 :: rt).take (L.length - 1 + 1) = L := by
      rw [List.take_append_eq_append_take,
        List.take_of_length_le (by simp only [List.length_dropLast]; omega)]
      have hidx : L.length - 1 + 1 - (L.dropLast).length = 1 := by
        simp only [List.length_dropLast]
        omega
      rw [hidx]
      have hr0 : r0 = L.getLast hLne := by
        rw [List.getLast_eq_getElem, ← ptAt_eq_getElem _ _ (by omega), hLlast, ← hRt0]
        rfl
      rw [show (r0 :: rt).take 1 = [r0] from rfl, hr0]
      exact List.dropLast_append_getLast hLne
    have hdrop : (L.dropLast ++ r0 :: rt).drop (L.length - 1) = r0 :: rt := by
      rw [List.drop_append_eq_append_drop]
      have h1 : L.length - 1 = (L.dropLast).length := by
        simp only [List.length_dropLast]
      rw [h1, List.drop_length]
      simp
    rw [simplify_rdp, if_neg (by rw [hRlen]; omega), hscanR]
    rw [if_pos hsplit, dif_pos (show 1 ≤ ((rdpScan l).1, L.length - 1).2 ∧
      ((rdpScan l).1, L.length - 1).2 ≤ (L.dropLast ++ r0 :: rt).length - 2 by
        refine ⟨by omega, ?_⟩
        rw [hRlen]
        simp only []
        omega)]
    simp only []
    rw [htake, hdrop, ihA, ihB]
termination_by l.length
decreasing_by
  · simp only [List.length_take]
    omega
  · simp only [List.length_drop]
    omega

/-- C9 witness: idempotence at a concrete stroke with the medium preset's
threshold. -/
theorem simplify_rdp_idempotent_witness :
    simplify_rdp (simplify_rdp (twoPoint 128) 2) 2 = simplify_rdp (twoPoint 128) 2 :=
  simplify_rdp_idempotent (twoPoint 128) 2 (by norm_num)

end InkSight
